import Mathlib

/-!
# Stoichiometric ODE-system builder: formal model and verification

This file embeds the reaction-system builder of the codegen tutorial
(`mk_exprs_symbs`: reactions + species names → symbolic derivative vector,
concentration symbols, rate-constant symbols) and proves the specified
properties about it.

Symbolic expressions are modelled by an explicit AST `SymExpr`; symbolic
equality ("the builder must yield dA/dt = k2*B*C - k1*A") is captured by
equality of evaluations under every integer assignment of the concentration
and rate-constant symbols, which is exactly polynomial identity.

Python dictionaries (reactant multiplicities, net stoichiometries) are
embedded as association lists in insertion order; dictionary key uniqueness
is an explicit hypothesis where a proof needs it.
-/

/-- Symbolic expression over concentration symbols and rate-constant
symbols, as built by the symbolic-algebra engine: integer constants,
the two symbol kinds, sums, products and natural powers. -/
inductive SymExpr where
  | int (n : Int)
  | conc (name : String)
  | rate (name : String)
  | add (a b : SymExpr)
  | mul (a b : SymExpr)
  | pow (a : SymExpr) (n : Nat)
  deriving Repr, DecidableEq

/-- Evaluate a symbolic expression under an assignment `cv` of the
concentration symbols and `kv` of the rate-constant symbols. -/
def SymExpr.eval (cv kv : String → Int) : SymExpr → Int
  | .int n => n
  | .conc s => cv s
  | .rate s => kv s
  | .add a b => a.eval cv kv + b.eval cv kv
  | .mul a b => a.eval cv kv * b.eval cv kv
  | .pow a n => (a.eval cv kv) ^ n

/-- A reaction: rate-constant name, reactant multiplicities (the `r_stoich`
dictionary, species name → exponent) and net stoichiometric change (the
`net_stoich` dictionary, species name → signed change). -/
structure Reaction where
  coeff : String
  r_stoich : List (String × Nat)
  net_stoich : List (String × Int)
  deriving Repr, DecidableEq

/-- All species names referenced by a reaction's two mappings. -/
def Reaction.keys (r : Reaction) : List String :=
  r.r_stoich.map Prod.fst ++ r.net_stoich.map Prod.fst

/-- Validation errors of the builder. -/
inductive BuildError where
  | duplicateSpecies (name : String)
  | unknownSpecies (name : String)
  deriving Repr, DecidableEq

/-- The builder's successful output: derivative vector, concentration
symbols and rate-constant symbols. -/
structure BuildResult where
  derivs : List SymExpr
  concs : List SymExpr
  rates : List SymExpr
  deriving Repr, DecidableEq

/-- First name that occurs twice in a list, if any. -/
def firstDup : List String → Option String
  | [] => none
  | n :: rest => if rest.contains n then some n else firstDup rest

/-- First species name referenced by some reaction mapping that is not a
declared species, if any. -/
def firstUnknown (rxns : List Reaction) (names : List String) : Option String :=
  ((rxns.map Reaction.keys).flatten).find? (fun s => !(names.contains s))

/-- Law-of-mass-action rate expression of one reaction: the rate-constant
symbol multiplied by each reactant concentration symbol raised to its
multiplicity; a zero multiplicity is omitted from the product. -/
def rateExpr (coeff : String) (r_stoich : List (String × Nat)) : SymExpr :=
  (r_stoich.filter (fun p => p.2 != 0)).foldl
    (fun acc p => SymExpr.mul acc (SymExpr.pow (SymExpr.conc p.1) p.2))
    (SymExpr.rate coeff)

/-- Derivative accumulator of one species: starting from symbolic zero,
each reaction whose net-stoichiometry mapping contains the species adds
its signed change times its rate expression. -/
def derivOf (rxns : List Reaction) (n : String) : SymExpr :=
  rxns.foldl
    (fun acc r =>
      match r.net_stoich.lookup n with
      | some c => SymExpr.add acc (SymExpr.mul (SymExpr.int c) (rateExpr r.coeff r.r_stoich))
      | none => acc)
    (SymExpr.int 0)

/-- Rate-constant names in first-appearance order over the reaction list,
reusing (by name) a previously created constant. -/
def rateNames (rxns : List Reaction) : List String :=
  rxns.foldl (fun acc r => if acc.contains r.coeff then acc else acc ++ [r.coeff]) []

/-- Modelled from the spec: the repository ships only the notebook callers
of `mk_exprs_symbs` (the exercise solution file is absent), so the builder
is modelled from the specified algorithm. It validates that the declared
species list is duplicate-free and that every mapping key is declared,
then returns one derivative expression per declared species in declared
order, the concentration symbols in species order, and the rate-constant
symbols in first-appearance order deduplicated by name. -/
def mk_exprs_symbs (rxns : List Reaction) (names : List String) :
    Except BuildError BuildResult :=
  match firstDup names with
  | some n => Except.error (BuildError.duplicateSpecies n)
  | none =>
    match firstUnknown rxns names with
    | some n => Except.error (BuildError.unknownSpecies n)
    | none =>
      Except.ok
        { derivs := names.map (derivOf rxns)
          concs := names.map SymExpr.conc
          rates := (rateNames rxns).map SymExpr.rate }

/-- Robertson's reaction system, as written in the kinetics notebook. -/
def robertson_reactions : List Reaction :=
  [ { coeff := "k1", r_stoich := [("A", 1)], net_stoich := [("B", 1), ("A", -1)] },
    { coeff := "k2", r_stoich := [("B", 1), ("C", 1)], net_stoich := [("A", 1), ("B", -1)] },
    { coeff := "k3", r_stoich := [("B", 2)], net_stoich := [("B", -1), ("C", 1)] } ]

/-- Robertson's species list, as written in the kinetics notebook. -/
def robertson_names : List String := ["A", "B", "C"]

/-- Two-step radioactive decay (Tc-99m) system from the lambdify notebook,
written as a reaction list. -/
def decay_reactions : List Reaction :=
  [ { coeff := "l1", r_stoich := [("x", 1)], net_stoich := [("x", -1), ("y", 1)] },
    { coeff := "l2", r_stoich := [("y", 1)], net_stoich := [("y", -1), ("z", 1)] } ]

/-- Two-step decay species list. -/
def decay_names : List String := ["x", "y", "z"]

/-- The builder's output on Robertson's system, written out explicitly. -/
def robertsonRes : BuildResult :=
  { derivs :=
      [ SymExpr.add
          (SymExpr.add (SymExpr.int 0)
            (SymExpr.mul (SymExpr.int (-1))
              (SymExpr.mul (SymExpr.rate "k1") (SymExpr.pow (SymExpr.conc "A") 1))))
          (SymExpr.mul (SymExpr.int 1)
            (SymExpr.mul (SymExpr.mul (SymExpr.rate "k2") (SymExpr.pow (SymExpr.conc "B") 1))
              (SymExpr.pow (SymExpr.conc "C") 1))),
        SymExpr.add
          (SymExpr.add
            (SymExpr.add (SymExpr.int 0)
              (SymExpr.mul (SymExpr.int 1)
                (SymExpr.mul (SymExpr.rate "k1") (SymExpr.pow (SymExpr.conc "A") 1))))
            (SymExpr.mul (SymExpr.int (-1))
              (SymExpr.mul (SymExpr.mul (SymExpr.rate "k2") (SymExpr.pow (SymExpr.conc "B") 1))
                (SymExpr.pow (SymExpr.conc "C") 1))))
          (SymExpr.mul (SymExpr.int (-1))
            (SymExpr.mul (SymExpr.rate "k3") (SymExpr.pow (SymExpr.conc "B") 2))),
        SymExpr.add (SymExpr.int 0)
          (SymExpr.mul (SymExpr.int 1)
            (SymExpr.mul (SymExpr.rate "k3") (SymExpr.pow (SymExpr.conc "B") 2))) ]
    concs := [SymExpr.conc "A", SymExpr.conc "B", SymExpr.conc "C"]
    rates := [SymExpr.rate "k1", SymExpr.rate "k2", SymExpr.rate "k3"] }

/-- The builder's output on the two-step decay system, written out
explicitly. -/
def decayRes : BuildResult :=
  { derivs :=
      [ SymExpr.add (SymExpr.int 0)
          (SymExpr.mul (SymExpr.int (-1))
            (SymExpr.mul (SymExpr.rate "l1") (SymExpr.pow (SymExpr.conc "x") 1))),
        SymExpr.add
          (SymExpr.add (SymExpr.int 0)
            (SymExpr.mul (SymExpr.int 1)
              (SymExpr.mul (SymExpr.rate "l1") (SymExpr.pow (SymExpr.conc "x") 1))))
          (SymExpr.mul (SymExpr.int (-1))
            (SymExpr.mul (SymExpr.rate "l2") (SymExpr.pow (SymExpr.conc "y") 1))),
        SymExpr.add (SymExpr.int 0)
          (SymExpr.mul (SymExpr.int 1)
            (SymExpr.mul (SymExpr.rate "l2") (SymExpr.pow (SymExpr.conc "y") 1))) ]
    concs := [SymExpr.conc "x", SymExpr.conc "y", SymExpr.conc "z"]
    rates := [SymExpr.rate "l1", SymExpr.rate "l2"] }

/-- C1: on the Robertson input, the builder returns the concentration
symbols A, B, C, the rate-constant symbols k1, k2, k3, and a derivative
vector that is symbolically (under every assignment of the symbols)
dA/dt = k2*B*C - k1*A, dB/dt = k1*A - k2*B*C - k3*B^2, dC/dt = k3*B^2
in species order. -/
theorem robertson_build_correct :
    mk_exprs_symbs robertson_reactions robertson_names = Except.ok robertsonRes ∧
    robertsonRes.concs = [SymExpr.conc "A", SymExpr.conc "B", SymExpr.conc "C"] ∧
    robertsonRes.rates = [SymExpr.rate "k1", SymExpr.rate "k2", SymExpr.rate "k3"] ∧
    ∀ cv kv : String → Int,
      robertsonRes.derivs.map (SymExpr.eval cv kv) =
        [ kv "k2" * cv "B" * cv "C" - kv "k1" * cv "A",
          kv "k1" * cv "A" - kv "k2" * cv "B" * cv "C" - kv "k3" * cv "B" ^ 2,
          kv "k3" * cv "B" ^ 2 ] := by
  refine ⟨rfl, rfl, rfl, fun cv kv => ?_⟩
  simp only [robertsonRes, List.map_cons, List.map_nil, SymExpr.eval, List.cons.injEq, and_true]
  refine ⟨by ring, by ring, by ring⟩

/-- C7: on the two-step decay input, the builder returns a derivative
vector that is symbolically dx/dt = -l1*x, dy/dt = l1*x - l2*y,
dz/dt = l2*y in species order. -/
theorem decay_build_correct :
    mk_exprs_symbs decay_reactions decay_names = Except.ok decayRes ∧
    decayRes.concs = [SymExpr.conc "x", SymExpr.conc "y", SymExpr.conc "z"] ∧
    decayRes.rates = [SymExpr.rate "l1", SymExpr.rate "l2"] ∧
    ∀ cv kv : String → Int,
      decayRes.derivs.map (SymExpr.eval cv kv) =
        [ -(kv "l1" * cv "x"),
          kv "l1" * cv "x" - kv "l2" * cv "y",
          kv "l2" * cv "y" ] := by
  refine ⟨rfl, rfl, rfl, fun cv kv => ?_⟩
  simp only [decayRes, List.map_cons, List.map_nil, SymExpr.eval, List.cons.injEq, and_true]
  refine ⟨by ring, by ring, by ring⟩

/-- Signed stoichiometric change of species `n` in reaction `r` (0 when the
species is absent from the net-stoichiometry mapping). -/
def netCoeff (r : Reaction) (n : String) : Int :=
  (r.net_stoich.lookup n).getD 0

theorem rateExpr_eval_aux (cv kv : String → Int) (l : List (String × Nat)) :
    ∀ acc : SymExpr,
      SymExpr.eval cv kv
        ((l.filter (fun p => p.2 != 0)).foldl
          (fun a p => SymExpr.mul a (SymExpr.pow (SymExpr.conc p.1) p.2)) acc)
      = acc.eval cv kv * (l.map (fun p => cv p.1 ^ p.2)).prod := by
  induction l with
  | nil => intro acc; simp [SymExpr.eval]
  | cons p l ih =>
    intro acc
    by_cases h : p.2 = 0
    · simp only [List.filter_cons, h, bne_self_eq_false, Bool.false_eq_true, if_false,
        List.map_cons, List.prod_cons, pow_zero, one_mul]
      exact ih acc
    · have hb : (p.2 != 0) = true := by simpa using h
      simp only [List.filter_cons, hb, if_true, List.foldl_cons, List.map_cons, List.prod_cons]
      rw [ih (SymExpr.mul acc (SymExpr.pow (SymExpr.conc p.1) p.2))]
      simp only [SymExpr.eval]
      ring

theorem rateExpr_eval (cv kv : String → Int) (coeff : String)
    (rs : List (String × Nat)) :
    (rateExpr coeff rs).eval cv kv = kv coeff * (rs.map (fun p => cv p.1 ^ p.2)).prod := by
  simpa [SymExpr.eval] using rateExpr_eval_aux cv kv rs (SymExpr.rate coeff)

/-- C2: each reaction's rate expression is symbolically the rate-constant
symbol times the product of reactant concentrations raised to their
multiplicities (a zero multiplicity contributes the factor 1 and is in
fact omitted from the built product; an absent species never appears). -/
theorem rate_expression_mass_action (r : Reaction) :
    (∀ cv kv : String → Int,
      (rateExpr r.coeff r.r_stoich).eval cv kv
        = kv r.coeff * (r.r_stoich.map (fun p => cv p.1 ^ p.2)).prod) ∧
    rateExpr r.coeff (r.r_stoich.filter (fun p => p.2 != 0))
      = rateExpr r.coeff r.r_stoich := by
  constructor
  · intro cv kv; exact rateExpr_eval cv kv r.coeff r.r_stoich
  · simp [rateExpr, List.filter_filter]

theorem lookup_eq_none_of_not_mem_keys (a : String) (l : List (String × Int))
    (h : a ∉ l.map Prod.fst) : l.lookup a = none := by
  induction l with
  | nil => rfl
  | cons p rest ih =>
    simp only [List.map_cons, List.mem_cons, not_or] at h
    have hne : (a == p.1) = false := by simpa using h.1
    simp [List.lookup, hne, ih h.2]

theorem derivOf_eval_aux (cv kv : String → Int) (n : String) (rxns : List Reaction) :
    ∀ acc : SymExpr,
      SymExpr.eval cv kv
        (rxns.foldl
          (fun acc r =>
            match r.net_stoich.lookup n with
            | some c =>
                SymExpr.add acc (SymExpr.mul (SymExpr.int c) (rateExpr r.coeff r.r_stoich))
            | none => acc)
          acc)
      = acc.eval cv kv
        + (rxns.map (fun r => netCoeff r n * (rateExpr r.coeff r.r_stoich).eval cv kv)).sum := by
  induction rxns with
  | nil => intro acc; simp
  | cons r rxns ih =>
    intro acc
    cases hl : r.net_stoich.lookup n with
    | none =>
      simp only [List.foldl_cons, hl, List.map_cons, List.sum_cons, netCoeff, hl,
        Option.getD_none, zero_mul, zero_add]
      exact ih acc
    | some c =>
      have hnc : netCoeff r n = c := by simp [netCoeff, hl]
      simp only [List.foldl_cons, hl, List.map_cons, List.sum_cons, hnc]
      rw [ih (SymExpr.add acc (SymExpr.mul (SymExpr.int c) (rateExpr r.coeff r.r_stoich)))]
      simp only [SymExpr.eval]
      ring

theorem derivOf_eval (rxns : List Reaction) (n : String) (cv kv : String → Int) :
    (derivOf rxns n).eval cv kv
      = (rxns.map (fun r => netCoeff r n * (rateExpr r.coeff r.r_stoich).eval cv kv)).sum := by
  simpa [SymExpr.eval] using derivOf_eval_aux cv kv n rxns (SymExpr.int 0)

theorem derivOf_untouched (rxns : List Reaction) (n : String)
    (h : ∀ r ∈ rxns, r.net_stoich.lookup n = none) : derivOf rxns n = SymExpr.int 0 := by
  unfold derivOf
  induction rxns with
  | nil => rfl
  | cons r rxns ih =>
    rw [List.foldl_cons, h r (List.mem_cons_self r rxns)]
    exact ih (fun r hr => h r (List.mem_cons_of_mem _ hr))

theorem mk_ok_shape {rxns : List Reaction} {names : List String} {res : BuildResult}
    (h : mk_exprs_symbs rxns names = Except.ok res) :
    res = { derivs := names.map (derivOf rxns), concs := names.map SymExpr.conc,
            rates := (rateNames rxns).map SymExpr.rate }
      ∧ firstDup names = none ∧ firstUnknown rxns names = none := by
  unfold mk_exprs_symbs at h
  cases hd : firstDup names with
  | some n => rw [hd] at h; exact absurd h (by simp)
  | none =>
    rw [hd] at h
    cases hu : firstUnknown rxns names with
    | some n => rw [hu] at h; exact absurd h (by simp)
    | none =>
      rw [hu] at h
      simp only [Except.ok.injEq] at h
      exact ⟨h.symm, rfl, rfl⟩

theorem getD_map_of_lt {α β : Type} (f : α → β) (l : List α) (i : Nat) (d : α) (d2 : β)
    (h : i < l.length) : (l.map f).getD i d2 = f (l.getD i d) := by
  rw [List.getD_eq_getElem?_getD, List.getD_eq_getElem?_getD, List.getElem?_map,
    List.getElem?_eq_getElem h]
  rfl

/-- C3: on every accepted input the derivative vector has one entry per
declared species in declared order, the entry of species i is symbolically
the sum over all reactions of signed change times rate expression (a
reaction not mentioning the species contributes nothing), and a species
mentioned in no net-stoichiometry mapping keeps the symbolic zero it was
initialised with. -/
theorem derivative_vector_structure (rxns : List Reaction) (names : List String)
    (res : BuildResult) (h : mk_exprs_symbs rxns names = Except.ok res) :
    res.derivs.length = names.length ∧
    res.derivs = names.map (derivOf rxns) ∧
    (∀ i, i < names.length → ∀ cv kv : String → Int,
      (res.derivs.getD i (SymExpr.int 0)).eval cv kv
        = (rxns.map (fun r =>
            netCoeff r (names.getD i "") * (rateExpr r.coeff r.r_stoich).eval cv kv)).sum) ∧
    (∀ i, i < names.length →
      (∀ r ∈ rxns, r.net_stoich.lookup (names.getD i "") = none) →
      res.derivs.getD i (SymExpr.int 0) = SymExpr.int 0) := by
  obtain ⟨hres, -, -⟩ := mk_ok_shape h
  subst hres
  refine ⟨by simp, rfl, ?_, ?_⟩
  · intro i hi cv kv
    rw [getD_map_of_lt (derivOf rxns) names i "" (SymExpr.int 0) hi]
    exact derivOf_eval rxns (names.getD i "") cv kv
  · intro i hi huntouched
    rw [getD_map_of_lt (derivOf rxns) names i "" (SymExpr.int 0) hi]
    exact derivOf_untouched rxns (names.getD i "") huntouched

theorem derivative_vector_structure_check :
    robertsonRes.derivs.length = robertson_names.length ∧
    robertsonRes.derivs = robertson_names.map (derivOf robertson_reactions) ∧
    (∀ i, i < robertson_names.length → ∀ cv kv : String → Int,
      (robertsonRes.derivs.getD i (SymExpr.int 0)).eval cv kv
        = (robertson_reactions.map (fun r =>
            netCoeff r (robertson_names.getD i "")
              * (rateExpr r.coeff r.r_stoich).eval cv kv)).sum) ∧
    (∀ i, i < robertson_names.length →
      (∀ r ∈ robertson_reactions,
        r.net_stoich.lookup (robertson_names.getD i "") = none) →
      robertsonRes.derivs.getD i (SymExpr.int 0) = SymExpr.int 0) :=
  derivative_vector_structure robertson_reactions robertson_names robertsonRes rfl

theorem firstDup_eq_none_iff (l : List String) : firstDup l = none ↔ l.Nodup := by
  induction l with
  | nil => simp [firstDup]
  | cons n rest ih =>
    by_cases hm : n ∈ rest
    · simp [firstDup, List.elem_iff, hm, List.nodup_cons]
    · simp [firstDup, List.elem_iff, hm, List.nodup_cons, ih]

theorem firstDup_mem (l : List String) (d : String) (h : firstDup l = some d) : d ∈ l := by
  induction l with
  | nil => exact absurd h (by simp [firstDup])
  | cons n rest ih =>
    by_cases hm : n ∈ rest
    · have hdn : n = d := by
        simpa [firstDup, List.elem_iff, hm] using h
      simp [← hdn]
    · have h2 : firstDup rest = some d := by
        simpa [firstDup, List.elem_iff, hm] using h
      exact List.mem_cons_of_mem n (ih h2)

theorem firstUnknown_eq_none_iff (rxns : List Reaction) (names : List String) :
    firstUnknown rxns names = none ↔ ∀ r ∈ rxns, ∀ s ∈ r.keys, s ∈ names := by
  unfold firstUnknown
  rw [List.find?_eq_none]
  constructor
  · intro h r hr s hs
    have hmem : s ∈ (rxns.map Reaction.keys).flatten := by
      rw [List.mem_flatten]
      exact ⟨r.keys, List.mem_map_of_mem Reaction.keys hr, hs⟩
    have := h s hmem
    simpa [List.elem_iff] using this
  · intro h s hmem
    rw [List.mem_flatten] at hmem
    obtain ⟨ks, hks, hs⟩ := hmem
    rw [List.mem_map] at hks
    obtain ⟨r, hr, hrk⟩ := hks
    have : s ∈ names := h r hr s (hrk ▸ hs)
    simp [List.elem_iff, this]

/-- C4: whenever some reaction mapping references an undeclared species
(and the declared list is duplicate-free, as the data model requires),
the builder returns the UnknownSpecies error naming an undeclared species,
and no result vector at all. -/
theorem unknown_species_error (rxns : List Reaction) (names : List String)
    (hnd : names.Nodup)
    (h : ¬ ∀ r ∈ rxns, ∀ s ∈ r.keys, s ∈ names) :
    ((firstUnknown rxns names).getD "") ∉ names ∧
    mk_exprs_symbs rxns names
      = Except.error (BuildError.unknownSpecies ((firstUnknown rxns names).getD "")) := by
  have hd : firstDup names = none := (firstDup_eq_none_iff names).mpr hnd
  cases hu : firstUnknown rxns names with
  | none => exact absurd ((firstUnknown_eq_none_iff rxns names).mp hu) h
  | some s =>
    have hu' : ((rxns.map Reaction.keys).flatten).find? (fun s => !(names.contains s))
        = some s := hu
    have hmem : s ∉ names := by simpa [List.elem_iff] using List.find?_some hu'
    refine ⟨by simpa using hmem, ?_⟩
    simp [mk_exprs_symbs, hd, hu]

/-- The unknown-species scenario of the spec: a reaction mentioning a
species D while the declared species are A, B, C. -/
def unknown_demo_reactions : List Reaction :=
  [ { coeff := "k1", r_stoich := [("A", 1)], net_stoich := [("A", -1), ("D", 1)] } ]

theorem unknown_species_error_check :
    ((firstUnknown unknown_demo_reactions robertson_names).getD "") ∉ robertson_names ∧
    mk_exprs_symbs unknown_demo_reactions robertson_names
      = Except.error
          (BuildError.unknownSpecies
            ((firstUnknown unknown_demo_reactions robertson_names).getD "")) :=
  unknown_species_error unknown_demo_reactions robertson_names (by decide) (by decide)

/-- C5: whenever the declared species list contains a repeated name the
builder returns the DuplicateSpecies error naming a repeated entry (so it
succeeds only on duplicate-free species lists). -/
theorem duplicate_species_error (rxns : List Reaction) (names : List String)
    (h : ¬ names.Nodup) :
    ((firstDup names).getD "") ∈ names ∧
    mk_exprs_symbs rxns names
      = Except.error (BuildError.duplicateSpecies ((firstDup names).getD "")) := by
  cases hd : firstDup names with
  | none => exact absurd ((firstDup_eq_none_iff names).mp hd) h
  | some d =>
    refine ⟨by simpa using firstDup_mem names d hd, ?_⟩
    simp [mk_exprs_symbs, hd]

theorem duplicate_species_error_check :
    ((firstDup ["A", "A"]).getD "") ∈ ["A", "A"] ∧
    mk_exprs_symbs robertson_reactions ["A", "A"]
      = Except.error (BuildError.duplicateSpecies ((firstDup ["A", "A"]).getD "")) :=
  duplicate_species_error robertson_reactions ["A", "A"] (by decide)

/-- Specification-side first-appearance deduplication: keep the first
occurrence of each name, in order of first appearance. -/
def firstSeenDedup : List String → List String
  | [] => []
  | x :: xs => x :: (firstSeenDedup xs).filter (fun y => y != x)

theorem firstSeenDedup_mem (l : List String) (a : String) :
    a ∈ firstSeenDedup l ↔ a ∈ l := by
  induction l with
  | nil => simp [firstSeenDedup]
  | cons x xs ih =>
    by_cases hax : a = x
    · simp [firstSeenDedup, hax]
    · simp [firstSeenDedup, hax, List.mem_filter, ih]

theorem firstSeenDedup_nodup (l : List String) : (firstSeenDedup l).Nodup := by
  induction l with
  | nil => simp [firstSeenDedup]
  | cons x xs ih =>
    rw [firstSeenDedup, List.nodup_cons]
    constructor
    · intro hx
      exact absurd (List.mem_filter.mp hx).2 (by simp)
    · exact List.Nodup.filter _ ih

theorem rateNames_aux (cs : List String) :
    ∀ acc : List String,
      cs.foldl (fun a c => if a.contains c then a else a ++ [c]) acc
        = acc ++ (firstSeenDedup cs).filter (fun c => !(acc.contains c)) := by
  induction cs with
  | nil => intro acc; simp [firstSeenDedup]
  | cons c cs ih =>
    intro acc
    by_cases hc : c ∈ acc
    · have hcb : acc.contains c = true := by simp [List.elem_iff, hc]
      rw [List.foldl_cons, if_pos hcb, ih acc, firstSeenDedup, List.filter_cons]
      have hnc : (!(acc.contains c)) = false := by simp [List.elem_iff, hc]
      rw [hnc, if_neg (by simp), List.filter_filter]
      congr 1
      refine (List.filter_congr ?_).symm
      intro a ha
      by_cases hax : a = c
      · simp [hax, List.elem_iff, hc]
      · simp [hax]
    · have hcb : acc.contains c = false := by simp [List.elem_iff, hc]
      rw [List.foldl_cons, if_neg (by simp [List.elem_iff, hc]), ih (acc ++ [c]), firstSeenDedup,
        List.filter_cons]
      have hnc : (!(acc.contains c)) = true := by simp [List.elem_iff, hc]
      rw [hnc, if_pos rfl, List.filter_filter]
      simp only [List.append_assoc, List.singleton_append]
      congr 2
      refine List.filter_congr ?_
      intro a ha
      by_cases hax : a = c
      · simp [hax, List.elem_iff]
      · by_cases ham : a ∈ acc
        · simp [hax, List.elem_iff, ham]
        · simp [hax, List.elem_iff, ham]

theorem rateNames_eq_firstSeenDedup (rxns : List Reaction) :
    rateNames rxns = firstSeenDedup (rxns.map Reaction.coeff) := by
  have h1 : rateNames rxns
      = (rxns.map Reaction.coeff).foldl
          (fun a c => if a.contains c then a else a ++ [c]) [] := by
    rw [List.foldl_map]
    rfl
  rw [h1, rateNames_aux (rxns.map Reaction.coeff) []]
  simp

/-- C6: on every accepted input the rate-symbol list is exactly one symbol
per distinct rate-constant name, in first-appearance order over the
reaction list (duplicates merged by name), and the concentration-symbol
list is one symbol per declared species in input order. -/
theorem symbol_tables_correct (rxns : List Reaction) (names : List String)
    (res : BuildResult) (h : mk_exprs_symbs rxns names = Except.ok res) :
    res.concs = names.map SymExpr.conc ∧
    res.rates = (firstSeenDedup (rxns.map Reaction.coeff)).map SymExpr.rate ∧
    (firstSeenDedup (rxns.map Reaction.coeff)).Nodup ∧
    (∀ a, a ∈ firstSeenDedup (rxns.map Reaction.coeff) ↔ a ∈ rxns.map Reaction.coeff) := by
  obtain ⟨hres, -, -⟩ := mk_ok_shape h
  subst hres
  exact ⟨rfl, by rw [rateNames_eq_firstSeenDedup],
    firstSeenDedup_nodup _, fun a => firstSeenDedup_mem _ a⟩

theorem symbol_tables_correct_check :
    robertsonRes.concs = robertson_names.map SymExpr.conc ∧
    robertsonRes.rates
      = (firstSeenDedup (robertson_reactions.map Reaction.coeff)).map SymExpr.rate ∧
    (firstSeenDedup (robertson_reactions.map Reaction.coeff)).Nodup ∧
    (∀ a, a ∈ firstSeenDedup (robertson_reactions.map Reaction.coeff)
      ↔ a ∈ robertson_reactions.map Reaction.coeff) :=
  symbol_tables_correct robertson_reactions robertson_names robertsonRes rfl

theorem sum_map_sum_comm {α β : Type} (l1 : List α) (l2 : List β) (f : α → β → Int) :
    (l1.map (fun a => (l2.map (fun b => f a b)).sum)).sum
      = (l2.map (fun b => (l1.map (fun a => f a b)).sum)).sum := by
  induction l1 with
  | nil => simp
  | cons a l1 ih =>
    simp only [List.map_cons, List.sum_cons, ih]
    rw [List.sum_map_add]

theorem sum_map_update (l : List String) (f g : String → Int) (a : String)
    (hnd : l.Nodup) (ha : a ∈ l)
    (hfg : ∀ n ∈ l, n ≠ a → f n = g n) :
    (l.map f).sum = (l.map g).sum + (f a - g a) := by
  induction l with
  | nil => cases ha
  | cons x xs ih =>
    rw [List.nodup_cons] at hnd
    rcases List.mem_cons.mp ha with hax | hax
    · subst hax
      have hmapeq : xs.map f = xs.map g :=
        List.map_congr_left (fun n hn => hfg n (List.mem_cons_of_mem a hn)
          (fun hc => hnd.1 (hc ▸ hn)))
      simp only [List.map_cons, List.sum_cons, hmapeq]
      ring
    · have hxa : x ≠ a := by
        intro hx
        rw [hx] at hnd
        exact hnd.1 hax
      have hfx : f x = g x := hfg x (List.mem_cons_self x xs) hxa
      have ihres := ih hnd.2 hax (fun n hn hna => hfg n (List.mem_cons_of_mem x hn) hna)
      simp only [List.map_cons, List.sum_cons, hfx, ihres]
      ring

theorem sum_lookup_getD (l : List String) (net : List (String × Int))
    (hnd : l.Nodup) (hkeys : ∀ p ∈ net, p.1 ∈ l)
    (hknd : (net.map Prod.fst).Nodup) :
    (l.map (fun n => (net.lookup n).getD 0)).sum = (net.map Prod.snd).sum := by
  induction net with
  | nil => simp [List.lookup]
  | cons p rest ih =>
    rw [List.map_cons, List.nodup_cons] at hknd
    have hp1 : p.1 ∈ l := hkeys p (List.mem_cons_self p rest)
    have hrest : rest.lookup p.1 = none :=
      lookup_eq_none_of_not_mem_keys p.1 rest hknd.1
    have hfg : ∀ n ∈ l, n ≠ p.1 →
        ((List.lookup n (p :: rest)).getD 0) = ((List.lookup n rest).getD 0) := by
      intro n hn hne
      have hb : (n == p.1) = false := by simpa using hne
      simp [List.lookup, hb]
    rw [sum_map_update l _ _ p.1 hnd hp1 hfg]
    have hf : (List.lookup p.1 (p :: rest)).getD 0 = p.2 := by simp [List.lookup]
    have hg : (List.lookup p.1 rest).getD 0 = 0 := by simp [hrest]
    rw [hf, hg, ih (fun q hq => hkeys q (List.mem_cons_of_mem p hq)) hknd.2,
      List.map_cons, List.sum_cons]
    ring

/-- A closed system on one species where, for each species, the signed
changes over all reactions sum to zero, yet the reaction row sums do not:
A → 2A with rate k1*A, and 2A → A with rate k2*A^2. -/
def cex_reactions : List Reaction :=
  [ { coeff := "k1", r_stoich := [("A", 1)], net_stoich := [("A", 1)] },
    { coeff := "k2", r_stoich := [("A", 2)], net_stoich := [("A", -1)] } ]

/-- Species list of the counterexample system. -/
def cex_names : List String := ["A"]

/-- The builder's output on the counterexample system. -/
def cexRes : BuildResult :=
  { derivs :=
      [ SymExpr.add
          (SymExpr.add (SymExpr.int 0)
            (SymExpr.mul (SymExpr.int 1)
              (SymExpr.mul (SymExpr.rate "k1") (SymExpr.pow (SymExpr.conc "A") 1))))
          (SymExpr.mul (SymExpr.int (-1))
            (SymExpr.mul (SymExpr.rate "k2") (SymExpr.pow (SymExpr.conc "A") 2))) ]
    concs := [SymExpr.conc "A"]
    rates := [SymExpr.rate "k1", SymExpr.rate "k2"] }

/-- Concentration assignment used to separate the counterexample sum
from zero. -/
def cexCv : String → Int := fun _ => 1

/-- Rate-constant assignment used to separate the counterexample sum
from zero. -/
def cexKv : String → Int := fun s => if s = "k2" then 2 else 1

/-- C8 as stated is false: this valid input has, for each species, signed
changes over all reactions summing to zero (column-wise in the claim's own
sense), yet the sum of the derivative entries does not simplify to zero —
it evaluates to -1 under the exhibited assignment. -/
theorem conservation_columnwise_counterexample :
    (cex_reactions.map (fun r => netCoeff r "A")).sum = 0 ∧
    mk_exprs_symbs cex_reactions cex_names = Except.ok cexRes ∧
    (cexRes.derivs.map (SymExpr.eval cexCv cexKv)).sum = -1 := by
  refine ⟨by decide, rfl, by decide⟩

/-- C8 amended: for every accepted input whose reactions each have a
duplicate-free net-stoichiometry mapping summing to zero (a balanced
reaction row), the sum of all derivative entries is symbolically zero. -/
theorem conservation_of_balanced (rxns : List Reaction) (names : List String)
    (res : BuildResult) (h : mk_exprs_symbs rxns names = Except.ok res)
    (hknd : ∀ r ∈ rxns, (r.net_stoich.map Prod.fst).Nodup)
    (hbal : ∀ r ∈ rxns, (r.net_stoich.map Prod.snd).sum = 0) :
    ∀ cv kv : String → Int, (res.derivs.map (SymExpr.eval cv kv)).sum = 0 := by
  obtain ⟨hres, hd, hu⟩ := mk_ok_shape h
  subst hres
  intro cv kv
  have hnd : names.Nodup := (firstDup_eq_none_iff names).mp hd
  have hkeys : ∀ r ∈ rxns, ∀ s ∈ r.keys, s ∈ names :=
    (firstUnknown_eq_none_iff rxns names).mp hu
  rw [List.map_map]
  have heval : (SymExpr.eval cv kv ∘ derivOf rxns)
      = fun n => (rxns.map
          (fun r => netCoeff r n * (rateExpr r.coeff r.r_stoich).eval cv kv)).sum :=
    funext (fun n => derivOf_eval rxns n cv kv)
  rw [heval, sum_map_sum_comm]
  apply List.sum_eq_zero
  intro x hx
  rw [List.mem_map] at hx
  obtain ⟨r, hr, hxr⟩ := hx
  rw [← hxr, List.sum_map_mul_right]
  have hsubkeys : ∀ p ∈ r.net_stoich, p.1 ∈ names := by
    intro p hp
    apply hkeys r hr
    unfold Reaction.keys
    rw [List.mem_append]
    exact Or.inr (List.mem_map_of_mem Prod.fst hp)
  have hsum : (names.map (fun n => netCoeff r n)).sum = (r.net_stoich.map Prod.snd).sum := by
    have hbase := sum_lookup_getD names r.net_stoich hnd hsubkeys (hknd r hr)
    simpa [netCoeff] using hbase
  rw [hsum, hbal r hr, zero_mul]

theorem conservation_of_balanced_check :
    (robertsonRes.derivs.map (SymExpr.eval cexCv cexKv)).sum = 0 :=
  conservation_of_balanced robertson_reactions robertson_names robertsonRes rfl
    (by decide) (by decide) cexCv cexKv

theorem range_map_getD {α : Type} (l : List α) (d : α) :
    (List.range l.length).map (fun i => l.getD i d) = l := by
  induction l with
  | nil => simp
  | cons x xs ih =>
    rw [List.length_cons, List.range_succ_eq_map, List.map_cons, List.map_map]
    have hfun : ((fun i => (x :: xs).getD i d) ∘ Nat.succ) = fun i => xs.getD i d := by
      funext i
      simp [List.getD_cons_succ]
    rw [hfun, ih]
    rfl

/-- C9: permuting the declared species list (the reaction list unchanged)
permutes the returned derivative vector and concentration-symbol list by
exactly the same index permutation and leaves the rate-symbol list
unchanged. -/
theorem species_permutation_equivariance (rxns : List Reaction) (names : List String)
    (res : BuildResult) (p : List Nat)
    (h : mk_exprs_symbs rxns names = Except.ok res)
    (hp : p.Perm (List.range names.length)) :
    mk_exprs_symbs rxns (p.map (fun i => names.getD i ""))
      = Except.ok
          { derivs := p.map (fun i => res.derivs.getD i (SymExpr.int 0))
            concs := p.map (fun i => res.concs.getD i (SymExpr.int 0))
            rates := res.rates } := by
  obtain ⟨hres, hd, hu⟩ := mk_ok_shape h
  subst hres
  have hnd : names.Nodup := (firstDup_eq_none_iff names).mp hd
  have hkeys := (firstUnknown_eq_none_iff rxns names).mp hu
  have hlt : ∀ i ∈ p, i < names.length := by
    intro i hi
    have := hp.mem_iff.mp hi
    simpa using this
  have hperm : (p.map (fun i => names.getD i "")).Perm names := by
    have h1 := hp.map (fun i => names.getD i "")
    rw [range_map_getD names ""] at h1
    exact h1
  have hnd2 : (p.map (fun i => names.getD i "")).Nodup := hperm.nodup_iff.mpr hnd
  have hd2 : firstDup (p.map (fun i => names.getD i "")) = none :=
    (firstDup_eq_none_iff _).mpr hnd2
  have hu2 : firstUnknown rxns (p.map (fun i => names.getD i "")) = none := by
    rw [firstUnknown_eq_none_iff]
    intro r hr s hs
    exact hperm.mem_iff.mpr (hkeys r hr s hs)
  have hderivs : (p.map (fun i => names.getD i "")).map (derivOf rxns)
      = p.map (fun i => (names.map (derivOf rxns)).getD i (SymExpr.int 0)) := by
    rw [List.map_map]
    apply List.map_congr_left
    intro i hi
    exact (getD_map_of_lt (derivOf rxns) names i "" (SymExpr.int 0) (hlt i hi)).symm
  have hconcs : (p.map (fun i => names.getD i "")).map SymExpr.conc
      = p.map (fun i => (names.map SymExpr.conc).getD i (SymExpr.int 0)) := by
    rw [List.map_map]
    apply List.map_congr_left
    intro i hi
    exact (getD_map_of_lt SymExpr.conc names i "" (SymExpr.int 0) (hlt i hi)).symm
  unfold mk_exprs_symbs
  rw [hd2, hu2, hderivs, hconcs]

theorem species_permutation_equivariance_check :
    mk_exprs_symbs robertson_reactions
        ([2, 0, 1].map (fun i => robertson_names.getD i ""))
      = Except.ok
          { derivs := [2, 0, 1].map (fun i => robertsonRes.derivs.getD i (SymExpr.int 0))
            concs := [2, 0, 1].map (fun i => robertsonRes.concs.getD i (SymExpr.int 0))
            rates := robertsonRes.rates } :=
  species_permutation_equivariance robertson_reactions robertson_names robertsonRes
    [2, 0, 1] rfl (by decide)

/-- C10: the builder is a pure function of its two inputs: two calls with
equal reaction lists and equal species lists return equal results
(identical symbol lists and structurally equal expressions); in this
functional model the inputs cannot be mutated. -/
theorem builder_deterministic (rxns1 rxns2 : List Reaction)
    (names1 names2 : List String) (hr : rxns1 = rxns2) (hn : names1 = names2) :
    mk_exprs_symbs rxns1 names1 = mk_exprs_symbs rxns2 names2 := by
  rw [hr, hn]

theorem builder_deterministic_check :
    mk_exprs_symbs robertson_reactions robertson_names
      = mk_exprs_symbs robertson_reactions robertson_names :=
  builder_deterministic robertson_reactions robertson_reactions
    robertson_names robertson_names rfl rfl
